import Mathlib

/-!
Shallow embedding of the chess rules engine of the repository
(files engine.py and move.py) together with proofs about the
behaviour asserted by the specification.

Modelling conventions:
* a board square content (a numpy string cell such as "wP" or "") is an
  Option (PColor × PKind); the empty string is none;
* the 8×8 numpy array is a total function Fin 8 → Fin 8 → Cell, mutated
  in place in the source and passed functionally here;
* Python int coordinates inside the generators are Int, converted to
  Fin 8 exactly where the source bounds checks hold (the source never
  indexes the board out of range on these paths);
* a Move object may carry a secondary move (used only for castling); in
  this program a secondary move never itself carries a secondary move,
  so it is embedded as a plain SMove and make_move's recursive call is
  unrolled one level, which is exactly the depth the source ever uses.
-/

set_option maxHeartbeats 4000000
set_option maxRecDepth 1000000

namespace ChessGame

inductive PColor where
  | w
  | b
  deriving DecidableEq

inductive PKind where
  | P
  | N
  | B
  | R
  | Q
  | K
  deriving DecidableEq

/-- Content of one board square: none is the empty string cell. -/
abbrev Cell := Option (PColor × PKind)

/-- The 8×8 board array of engine.py. -/
abbrev Board := Fin 8 → Fin 8 → Cell

/-- One in-place assignment board[r][c] = v. -/
def setB (bo : Board) (r c : Fin 8) (v : Cell) : Board :=
  fun i j => if i = r ∧ j = c then v else bo i j

/-- The data of a Move object of move.py without its secondary move:
start square, end square, captured square and the two piece snapshots
taken from the board at construction time. -/
structure SMove where
  startRow : Fin 8
  startCol : Fin 8
  endRow : Fin 8
  endCol : Fin 8
  capRow : Fin 8
  capCol : Fin 8
  pieceMoved : Cell
  pieceCaptured : Cell
  deriving DecidableEq

/-- A Move object: its own data plus the optional secondary move
(the rook relocation of a castle). -/
structure Move where
  base : SMove
  secondary : Option SMove
  deriving DecidableEq

/-- The mutable GameState aggregate of engine.py. -/
structure GameState where
  board : Board
  white_move : Bool
  movelog : List Move
  checkmate : Bool
  stalemate : Bool
  white_king_loc : Fin 8 × Fin 8
  black_king_loc : Fin 8 × Fin 8

/-- Python `captured_row if captured_row else self.endRow`: the given
value is used unless it is absent or the falsy integer 0. -/
def pickCap (given : Option (Fin 8)) (dflt : Fin 8) : Fin 8 :=
  match given with
  | some v => if v.val = 0 then dflt else v
  | none => dflt

/-- Move.__init__: snapshots piece_moved and piece_captured from the
board, defaulting the captured square to the end square. -/
def newMove (bo : Board) (sr sc er ec : Fin 8) (cr cc : Option (Fin 8))
    (sec : Option SMove) : Move :=
  let kr := pickCap cr er
  let kc := pickCap cc ec
  { base := { startRow := sr, startCol := sc, endRow := er, endCol := ec,
              capRow := kr, capCol := kc,
              pieceMoved := bo sr sc, pieceCaptured := bo kr kc },
    secondary := sec }

/-- move_id = int(f-string of the four digits); every coordinate is a
single decimal digit below 8, so the concatenation is this number. -/
def moveId (m : Move) : Nat :=
  1000 * m.base.startRow.val + 100 * m.base.startCol.val +
    10 * m.base.endRow.val + m.base.endCol.val

/-- Move.__eq__: equality of the move_id fields. -/
def moveEq (m1 m2 : Move) : Bool :=
  decide (moveId m1 = moveId m2)

/-- Bounds check 0 <= r < 8 and 0 <= c < 8 on Python int coordinates,
returning the corresponding board index when it holds. -/
def fin? (r c : Int) : Option (Fin 8 × Fin 8) :=
  if h : 0 ≤ r ∧ r < 8 ∧ 0 ≤ c ∧ c < 8 then
    some (⟨r.toNat, by omega⟩, ⟨c.toNat, by omega⟩)
  else none

/-- Board read at Python int coordinates; only used under the source's
bounds guards. -/
def cellAt (bo : Board) (r c : Int) : Cell :=
  match fin? r c with
  | some q => bo q.1 q.2
  | none => none

/-- piece.startswith(ally_colour). An empty cell starts with neither
colour. -/
def isAlly (ce : Cell) (al : PColor) : Bool :=
  match ce with
  | some p => decide (p.1 = al)
  | none => false

/-- ally_colour = "w" if self.white_move else "b". -/
def allyOf (wm : Bool) : PColor :=
  if wm then PColor.w else PColor.b

/-- Append the simple move (sr,sc) → (er,ec) when the destination passes
the bounds check (in the source the guard always holds at these calls). -/
def addSimple (bo : Board) (acc : List Move) (sr sc : Fin 8) (er ec : Int) :
    List Move :=
  match fin? er ec with
  | some q => acc ++ [newMove bo sr sc q.1 q.2 none none none]
  | none => acc

/-- GameState.get_pawn_moves. -/
def getPawnMoves (bo : Board) (wm : Bool) (acc : List Move) (r c : Fin 8) :
    List Move :=
  if wm then
    let a1 :=
      if 0 ≤ (r.val : Int) - 1 ∧ (r.val : Int) - 1 < 8 ∧
          cellAt bo ((r.val : Int) - 1) (c.val : Int) = none then
        let a0 := addSimple bo acc r c ((r.val : Int) - 1) (c.val : Int)
        if r.val = 6 ∧ cellAt bo ((r.val : Int) - 2) (c.val : Int) = none then
          addSimple bo a0 r c ((r.val : Int) - 2) (c.val : Int)
        else a0
      else acc
    let a2 :=
      if (0 ≤ (r.val : Int) - 1 ∧ (r.val : Int) - 1 < 8) ∧
          (0 ≤ (c.val : Int) - 1 ∧ (c.val : Int) - 1 < 8) ∧
          cellAt bo ((r.val : Int) - 1) ((c.val : Int) - 1) ≠ none then
        addSimple bo a1 r c ((r.val : Int) - 1) ((c.val : Int) - 1)
      else a1
    if (0 ≤ (r.val : Int) - 1 ∧ (r.val : Int) - 1 < 8) ∧
        (c.val : Int) + 1 < 8 ∧
        cellAt bo ((r.val : Int) - 1) ((c.val : Int) + 1) ≠ none then
      addSimple bo a2 r c ((r.val : Int) - 1) ((c.val : Int) + 1)
    else a2
  else
    let a1 :=
      if 0 ≤ (r.val : Int) + 1 ∧ (r.val : Int) + 1 < 8 ∧
          cellAt bo ((r.val : Int) + 1) (c.val : Int) = none then
        let a0 := addSimple bo acc r c ((r.val : Int) + 1) (c.val : Int)
        if r.val = 1 ∧ cellAt bo ((r.val : Int) + 2) (c.val : Int) = none then
          addSimple bo a0 r c ((r.val : Int) + 2) (c.val : Int)
        else a0
      else acc
    let a2 :=
      if (0 ≤ (r.val : Int) + 1 ∧ (r.val : Int) + 1 < 8) ∧
          (0 ≤ (c.val : Int) - 1 ∧ (c.val : Int) - 1 < 8) ∧
          cellAt bo ((r.val : Int) + 1) ((c.val : Int) - 1) ≠ none then
        addSimple bo a1 r c ((r.val : Int) + 1) ((c.val : Int) - 1)
      else a1
    if (0 ≤ (r.val : Int) + 1 ∧ (r.val : Int) + 1 < 8) ∧
        (c.val : Int) + 1 < 8 ∧
        cellAt bo ((r.val : Int) + 1) ((c.val : Int) + 1) ≠ none then
      addSimple bo a2 r c ((r.val : Int) + 1) ((c.val : Int) + 1)
    else a2

/-- last_move.piece_moved[1] == "P". On an empty snapshot the source
would raise; such a logged move never occurs, and it is mapped to
false here. -/
def cellKindP (ce : Cell) : Bool :=
  match ce with
  | some (_, PKind.P) => true
  | _ => false

/-- GameState.get_en_passant, including the black branch exactly as in
the source (conditions startRow == 1 and endRow == 5). -/
def getEnPassant (bo : Board) (wm : Bool) (log : List Move)
    (acc : List Move) (r c : Fin 8) : List Move :=
  match log.getLast? with
  | none => acc
  | some last =>
    if cellKindP last.base.pieceMoved then
      if wm then
        if r.val = 3 then
          if last.base.startRow.val = 1 ∧ last.base.endRow.val = 3 then
            if (last.base.endCol.val : Int) = (c.val : Int) + 1 then
              acc ++ [newMove bo r c 2 last.base.endCol
                (some last.base.endRow) (some last.base.endCol) none]
            else if (last.base.endCol.val : Int) = (c.val : Int) - 1 then
              acc ++ [newMove bo r c 2 last.base.endCol
                (some last.base.endRow) (some last.base.endCol) none]
            else acc
          else acc
        else acc
      else
        if r.val = 5 then
          if last.base.startRow.val = 1 ∧ last.base.endRow.val = 5 then
            if (last.base.endCol.val : Int) = (c.val : Int) + 1 then
              acc ++ [newMove bo r c 6 last.base.endCol
                (some last.base.endRow) (some last.base.endCol) none]
            else if (last.base.endCol.val : Int) = (c.val : Int) - 1 then
              acc ++ [newMove bo r c 6 last.base.endCol
                (some last.base.endRow) (some last.base.endCol) none]
            else acc
          else acc
        else acc
    else acc

/-- Shared loop of the knight and king generators: fixed offsets, a
bounds check and the ally test. -/
def offsetMoves (bo : Board) (al : PColor) (offs : List (Int × Int))
    (acc : List Move) (r c : Fin 8) : List Move :=
  offs.foldl (fun a d =>
    match fin? ((r.val : Int) + d.1) ((c.val : Int) + d.2) with
    | some q =>
      if isAlly (bo q.1 q.2) al then a
      else a ++ [newMove bo r c q.1 q.2 none none none]
    | none => a) acc

/-- GameState.get_knight_moves. -/
def getKnightMoves (bo : Board) (wm : Bool) (acc : List Move) (r c : Fin 8) :
    List Move :=
  offsetMoves bo (allyOf wm)
    [(2,1),(2,-1),(1,2),(1,-2),(-2,1),(-2,-1),(-1,2),(-1,-2)] acc r c

/-- GameState.get_king_moves: the nested range(-1,2) loops, including
the (0,0) offset which the ally test discards. -/
def getKingMoves (bo : Board) (wm : Bool) (acc : List Move) (r c : Fin 8) :
    List Move :=
  offsetMoves bo (allyOf wm)
    [(-1,-1),(-1,0),(-1,1),(0,-1),(0,0),(0,1),(1,-1),(1,0),(1,1)] acc r c

/-- One sliding direction: i = 1..7, stopping after the first occupied
square; an out-of-board step leaves the loop state unchanged exactly as
the source's guarded loop body does. -/
def rayDirMoves (bo : Board) (al : PColor) (r c : Fin 8) (d : Int × Int)
    (acc : List Move) : List Move :=
  (((List.range' 1 7).foldl (fun st i =>
      if st.2 then st else
      match fin? ((r.val : Int) + d.1 * (i : Int)) ((c.val : Int) + d.2 * (i : Int)) with
      | some q =>
        let ep := bo q.1 q.2
        ((if isAlly ep al then st.1
          else st.1 ++ [newMove bo r c q.1 q.2 none none none]), ep.isSome)
      | none => st)
    (acc, false))).1

/-- GameState.get_rook_moves. -/
def getRookMoves (bo : Board) (wm : Bool) (acc : List Move) (r c : Fin 8) :
    List Move :=
  [((-1 : Int), (0 : Int)), (0, -1), (1, 0), (0, 1)].foldl
    (fun a d => rayDirMoves bo (allyOf wm) r c d a) acc

/-- GameState.get_bishop_moves. -/
def getBishopMoves (bo : Board) (wm : Bool) (acc : List Move) (r c : Fin 8) :
    List Move :=
  [((-1 : Int), (-1 : Int)), (1, 1), (-1, 1), (1, -1)].foldl
    (fun a d => rayDirMoves bo (allyOf wm) r c d a) acc

/-- GameState.get_queen_moves. The source calls
moves.extend(self.get_rook_moves(moves, ...)): the callee appends to the
shared list and returns the same list, so extend doubles the whole
accumulated list; the bishop call then does the same. -/
def getQueenMoves (bo : Board) (wm : Bool) (acc : List Move) (r c : Fin 8) :
    List Move :=
  let a1 := getRookMoves bo wm acc r c
  let a2 := a1 ++ a1
  let a3 := getBishopMoves bo wm a2 r c
  a3 ++ a3

/-- any((move.startRow, move.startCol) == (r, c) for move in movelog). -/
def logHas (log : List Move) (r c : Nat) : Bool :=
  log.any (fun mv => decide (mv.base.startRow.val = r ∧ mv.base.startCol.val = c))

/-- GameState.get_castles: the log is scanned for any recorded move
starting on the king or rook home square, the intervening squares must
be empty, and the king move carries the rook relocation as its
secondary move. -/
def getCastles (bo : Board) (wm : Bool) (log : List Move) (acc : List Move) :
    List Move :=
  if wm then
    if logHas log 7 4 = false then
      let a1 :=
        if logHas log 7 7 = false ∧ bo 7 5 = none ∧ bo 7 6 = none then
          let rk := (newMove bo 7 7 7 5 none none none).base
          acc ++ [newMove bo 7 4 7 6 none none (some rk)]
        else acc
      if logHas log 7 0 = false ∧ bo 7 1 = none ∧ bo 7 2 = none ∧
          bo 7 3 = none then
        let rk := (newMove bo 7 0 7 3 none none none).base
        a1 ++ [newMove bo 7 4 7 2 none none (some rk)]
      else a1
    else acc
  else
    if logHas log 0 4 = false then
      let a1 :=
        if logHas log 0 7 = false ∧ bo 0 5 = none ∧ bo 0 6 = none then
          let rk := (newMove bo 0 7 0 5 none none none).base
          acc ++ [newMove bo 0 4 0 6 none none (some rk)]
        else acc
      if logHas log 0 0 = false ∧ bo 0 1 = none ∧ bo 0 2 = none ∧
          bo 0 3 = none then
        let rk := (newMove bo 0 0 0 3 none none none).base
        a1 ++ [newMove bo 0 4 0 2 none none (some rk)]
      else a1
    else acc

/-- GameState.get_possible_moves: row-major scan of the board,
dispatching on the piece letter for pieces of the side to move. Only
the board, the side-to-move flag and the move log are read. -/
def getPossibleMoves (bo : Board) (wm : Bool) (log : List Move) : List Move :=
  (List.finRange 8).foldl (fun accR r =>
    (List.finRange 8).foldl (fun a c =>
      match bo r c with
      | some (pc, k) =>
        if pc = allyOf wm then
          match k with
          | PKind.P => getEnPassant bo wm log (getPawnMoves bo wm a r c) r c
          | PKind.K => getCastles bo wm log (getKingMoves bo wm a r c)
          | PKind.Q => getQueenMoves bo wm a r c
          | PKind.R => getRookMoves bo wm a r c
          | PKind.N => getKnightMoves bo wm a r c
          | PKind.B => getBishopMoves bo wm a r c
        else a
      | none => a) accR) []

/-- GameState.square_attacked: the side-to-move flag is flipped, that
side's pseudo-legal moves are generated, the flag is restored, and the
destinations are compared with the queried square. -/
def squareAttacked (bo : Board) (wm : Bool) (log : List Move) (r c : Fin 8) :
    Bool :=
  (getPossibleMoves bo (!wm) log).any
    (fun mv => decide (mv.base.endRow = r ∧ mv.base.endCol = c))

/-- GameState.in_check. -/
def inCheck (s : GameState) : Bool :=
  if s.white_move then
    squareAttacked s.board s.white_move s.movelog
      s.white_king_loc.1 s.white_king_loc.2
  else
    squareAttacked s.board s.white_move s.movelog
      s.black_king_loc.1 s.black_king_loc.2

/-- GameState.check_game_state. The source tests `if self.in_check:` on
the bound method object itself, never calling it; a method object is
always truthy, so an empty move set always sets checkmate and the
stalemate branch is dead code. -/
def checkGameState (s : GameState) (moves : List Move) : GameState :=
  if moves.isEmpty then { s with checkmate := true } else s

/-- The three board writes of make_move lines 34-36. -/
def execSimple (bo : Board) (m : SMove) : Board :=
  setB (setB (setB bo m.startRow m.startCol none) m.capRow m.capCol none)
    m.endRow m.endCol m.pieceMoved

/-- The three board writes of undo_move lines 52-54 (and 58-60). -/
def undoSimple (bo : Board) (m : SMove) : Board :=
  setB (setB (setB bo m.startRow m.startCol m.pieceMoved)
    m.endRow m.endCol none) m.capRow m.capCol m.pieceCaptured

/-- King-location bookkeeping of make_move lines 39-42. -/
def kingUpd (s : GameState) (m : SMove) : GameState :=
  let s1 :=
    if m.pieceMoved = some (PColor.w, PKind.K) then
      { s with white_king_loc := (m.endRow, m.endCol) }
    else s
  if m.pieceMoved = some (PColor.b, PKind.K) then
    { s1 with black_king_loc := (m.endRow, m.endCol) }
  else s1

/-- GameState.make_move with log=True. When the move carries a secondary
move the recursive call (with log=False) is unrolled: the secondary's
board writes and king bookkeeping run and the turn flips exactly once,
in the inner call, never in the outer one. -/
def makeMove (s : GameState) (mv : Move) : GameState :=
  let s1 := { s with board := execSimple s.board mv.base,
                     movelog := s.movelog.concat mv }
  let s2 := kingUpd s1 mv.base
  match mv.secondary with
  | some m2 =>
    let t1 := { s2 with board := execSimple s2.board m2 }
    let t2 := kingUpd t1 m2
    { t2 with white_move := !t2.white_move }
  | none => { s2 with white_move := !s2.white_move }

/-- GameState.undo_move: no-op on an empty log; otherwise the popped
move's writes are reversed, then those of its secondary move, and the
turn flips back. The king-location fields are not touched, exactly as
in the source. -/
def undoMove (s : GameState) : GameState :=
  match s.movelog.getLast? with
  | none => s
  | some mv =>
    let s1 := { s with movelog := s.movelog.dropLast,
                       board := undoSimple s.board mv.base }
    let s2 :=
      match mv.secondary with
      | some m2 => { s1 with board := undoSimple s1.board m2 }
      | none => s1
    { s2 with white_move := !s2.white_move }

/-- moves.remove(move): drop the first element equal to the move under
Move.__eq__, i.e. under move_id equality. -/
def removeFirst : List Move → Move → List Move
  | [], _ => []
  | x :: xs, m => if moveEq x m then xs else x :: removeFirst xs m

/-- One in-place flip self.white_move = not self.white_move. -/
def flipTurn (s : GameState) : GameState :=
  { s with white_move := !s.white_move }

/-- One iteration of the remove_selfchecks loop: apply the move, flip
to the mover, test in_check, flip back, undo; drop the move from the
kept list when the test fired. -/
def probeStep (st : GameState × List Move) (mv : Move) :
    GameState × List Move :=
  let s1 := makeMove st.1 mv
  let s2 := flipTurn s1
  let bad := inCheck s2
  let s3 := flipTurn s2
  let s4 := undoMove s3
  (s4, if bad then removeFirst st.2 mv else st.2)

/-- GameState.remove_selfchecks: iterate over a copy of the list while
removing from the live list. -/
def removeSelfchecks (s : GameState) (moves : List Move) :
    GameState × List Move :=
  moves.foldl probeStep (s, moves)

/-- GameState.get_valid_moves: generation, the self-check filter, then
the terminal-state check; returns the resulting state and the filtered
list. -/
def getValidMoves (s : GameState) : GameState × List Move :=
  let pm := getPossibleMoves s.board s.white_move s.movelog
  let sm := removeSelfchecks s pm
  (checkGameState sm.1 sm.2, sm.2)

/-- Back-rank piece order R N B Q K B N R. -/
def backRank (pc : PColor) (c : Fin 8) : Cell :=
  some (pc,
    match c.val with
    | 0 => PKind.R
    | 1 => PKind.N
    | 2 => PKind.B
    | 3 => PKind.Q
    | 4 => PKind.K
    | 5 => PKind.B
    | 6 => PKind.N
    | _ => PKind.R)

/-- The standard initial board of GameState.__init__. -/
def initBoard : Board := fun r c =>
  match r.val with
  | 0 => backRank PColor.b c
  | 1 => some (PColor.b, PKind.P)
  | 6 => some (PColor.w, PKind.P)
  | 7 => backRank PColor.w c
  | _ => none

/-- GameState(): the standard initial position, White to move. -/
def newGame : GameState :=
  { board := initBoard, white_move := true, movelog := [],
    checkmate := false, stalemate := false,
    white_king_loc := (7, 4), black_king_loc := (0, 4) }

/-- Classic stalemate position: black king a8, white queen b6, white
king h1, black to move. Black has no legal move and its king is not
attacked. -/
def staleBoard : Board := fun r c =>
  match r.val, c.val with
  | 0, 0 => some (PColor.b, PKind.K)
  | 2, 1 => some (PColor.w, PKind.Q)
  | 7, 7 => some (PColor.w, PKind.K)
  | _, _ => none

def staleState : GameState :=
  { board := staleBoard, white_move := false, movelog := [],
    checkmate := false, stalemate := false,
    white_king_loc := (7, 7), black_king_loc := (0, 0) }

/-- White king e1 and rook h1 against black rook e8 and black king a8,
white to move: the white king is in check from the e8 rook. -/
def pinBoard : Board := fun r c =>
  match r.val, c.val with
  | 7, 4 => some (PColor.w, PKind.K)
  | 7, 7 => some (PColor.w, PKind.R)
  | 0, 4 => some (PColor.b, PKind.R)
  | 0, 0 => some (PColor.b, PKind.K)
  | _, _ => none

def pinState : GameState :=
  { board := pinBoard, white_move := true, movelog := [],
    checkmate := false, stalemate := false,
    white_king_loc := (7, 4), black_king_loc := (0, 0) }

/-- The rook move h1-h2 in pinState, which does not address the check. -/
def rh2 : Move := newMove pinBoard 7 7 6 7 none none none

/-- White pawn e2 with a white knight on d3, its forward-left diagonal. -/
def allyCapBoard : Board := fun r c =>
  match r.val, c.val with
  | 6, 4 => some (PColor.w, PKind.P)
  | 5, 3 => some (PColor.w, PKind.N)
  | 7, 0 => some (PColor.w, PKind.K)
  | 0, 0 => some (PColor.b, PKind.K)
  | _, _ => none

def allyCapState : GameState :=
  { board := allyCapBoard, white_move := true, movelog := [],
    checkmate := false, stalemate := false,
    white_king_loc := (7, 0), black_king_loc := (0, 0) }

/-- The generated pawn capture e2xd3 onto the white knight. -/
def pawnAlly : Move := newMove allyCapBoard 6 4 5 3 none none none

/-- Position before white plays e2-e4: white pawn e2, black pawn d4,
kings on their home squares. -/
def epPreBoard : Board := fun r c =>
  match r.val, c.val with
  | 6, 4 => some (PColor.w, PKind.P)
  | 4, 3 => some (PColor.b, PKind.P)
  | 7, 4 => some (PColor.w, PKind.K)
  | 0, 4 => some (PColor.b, PKind.K)
  | _, _ => none

def epPreState : GameState :=
  { board := epPreBoard, white_move := true, movelog := [],
    checkmate := false, stalemate := false,
    white_king_loc := (7, 4), black_king_loc := (0, 4) }

/-- The white double step e2-e4 in epPreState. -/
def e2e4mv : Move := newMove epPreBoard 6 4 4 4 none none none

/-- After e2-e4 the black d4 pawn stands beside the white e4 pawn and it
is black to move: the position of the en-passant test. -/
def epState : GameState := makeMove epPreState e2e4mv

/-- The pawn move e2-e3 at the initial position. -/
def mA : Move := newMove newGame.board 6 4 5 4 none none none

/-- The game after 1. e3. -/
def s1c2 : GameState := makeMove newGame mA

/-- The reply e7-e6. -/
def mB : Move := newMove s1c2.board 1 4 2 4 none none none

/-- The game after 1. e3 e6, white to move. -/
def s2c2 : GameState := makeMove s1c2 mB

/-- The king move Ke1-e2, legal after 1. e3 e6. -/
def kmE2 : Move := newMove s2c2.board 7 4 6 4 none none none

/-- Row of the side to move's king and rooks at game start. -/
def homeRow (wm : Bool) : Fin 8 := if wm then 7 else 0

/-- What claim C7 asserts of a generated castle move of the side to
move: the king was never moved from its original square according to
the log, the involved rook likewise, the squares strictly between king
and rook are empty, and the move carries a secondary move relocating
that rook to its post-castle square. -/
def CastleSpec (s : GameState) (m : Move) : Prop :=
  logHas s.movelog (homeRow s.white_move).val 4 = false ∧
  m.base.startRow = homeRow s.white_move ∧ m.base.startCol = 4 ∧
  m.base.endRow = homeRow s.white_move ∧
  ∃ r, m.secondary = some r ∧
    r.startRow = homeRow s.white_move ∧ r.endRow = homeRow s.white_move ∧
    r.pieceMoved = s.board r.startRow r.startCol ∧
    ((m.base.endCol = 6 ∧ r.startCol = 7 ∧ r.endCol = 5 ∧
      logHas s.movelog (homeRow s.white_move).val 7 = false ∧
      s.board (homeRow s.white_move) 5 = none ∧
      s.board (homeRow s.white_move) 6 = none) ∨
     (m.base.endCol = 2 ∧ r.startCol = 0 ∧ r.endCol = 3 ∧
      logHas s.movelog (homeRow s.white_move).val 0 = false ∧
      s.board (homeRow s.white_move) 1 = none ∧
      s.board (homeRow s.white_move) 2 = none ∧
      s.board (homeRow s.white_move) 3 = none))

/-- The captured square defaults to (equals) the end square. -/
def capSame (m : SMove) : Prop :=
  m.capRow = m.endRow ∧ m.capCol = m.endCol

instance (m : SMove) : Decidable (capSame m) := by
  unfold capSame
  infer_instance

/-- The move's piece snapshots agree with the board. -/
def SnapOk (bo : Board) (m : SMove) : Prop :=
  m.pieceMoved = bo m.startRow m.startCol ∧
  m.pieceCaptured = bo m.capRow m.capCol

instance (bo : Board) (m : SMove) : Decidable (SnapOk bo m) := by
  unfold SnapOk
  infer_instance

/-- Conditions under which the three writes of make_move are exactly
reversed by the three writes of undo_move on any board. -/
def SimpleRev (bo : Board) (m : SMove) : Prop :=
  SnapOk bo m ∧
  (capSame m ∨ (bo m.endRow m.endCol = none ∧
    ¬(m.startRow = m.endRow ∧ m.startCol = m.endCol)))

instance (bo : Board) (m : SMove) : Decidable (SimpleRev bo m) := by
  unfold SimpleRev
  infer_instance

/-- Reversal conditions for a full Move: its own writes, and those of a
secondary move when present. -/
def MoveRev (bo : Board) (mv : Move) : Prop :=
  mv.secondary.elim (SimpleRev bo mv.base)
    (fun r => SnapOk bo mv.base ∧ capSame mv.base ∧ SnapOk bo r ∧ capSame r)

instance (bo : Board) (mv : Move) : Decidable (MoveRev bo mv) := by
  unfold MoveRev
  cases mv.secondary <;> simp only [Option.elim] <;> infer_instance

/-- The squares written by the three board assignments of a move. -/
def hits (m : SMove) (i j : Fin 8) : Prop :=
  (i = m.startRow ∧ j = m.startCol) ∨ (i = m.endRow ∧ j = m.endCol) ∨
  (i = m.capRow ∧ j = m.capCol)

/-- Every candidate move of the current position satisfies the reversal
conditions. All generated moves satisfy them automatically except an
en-passant capture onto an occupied destination square, which cannot
arise in play. -/
def ProbeOk (s : GameState) : Prop :=
  ∀ m ∈ getPossibleMoves s.board s.white_move s.movelog, MoveRev s.board m

instance (s : GameState) : Decidable (ProbeOk s) := by
  unfold ProbeOk
  infer_instance

/-- The move snapshots describe a pawn double step from row 1 to
row 3 (a black double step). -/
def pawn13 (m : Move) : Prop :=
  cellKindP m.base.pieceMoved = true ∧ m.base.startRow.val = 1 ∧
    m.base.endRow.val = 3

/-- The move snapshots describe a pawn moving from row 1 to row 5; no
generator ever produces such a move. -/
def pawn15 (m : Move) : Prop :=
  cellKindP m.base.pieceMoved = true ∧ m.base.startRow.val = 1 ∧
    m.base.endRow.val = 5

/-- Shape facts of every move get_possible_moves generates on a board:
snapshots match the board, a secondary move is a capSame move with
matching snapshots, a move whose captured square differs from its end
square is an en-passant move of the recorded shape, a black double step
has an empty passed-through square, and no generated move is a pawn
move from row 1 to row 5. -/
def GenOk (bo : Board) (wm : Bool) (log : List Move) (m : Move) : Prop :=
  SnapOk bo m.base ∧
  (∀ r, m.secondary = some r → (SnapOk bo r ∧ capSame r ∧ capSame m.base)) ∧
  (¬ capSame m.base →
    (m.secondary = none ∧ m.base.startRow ≠ m.base.endRow ∧
     ∃ last, log.getLast? = some last ∧
       cellKindP last.base.pieceMoved = true ∧
       m.base.endCol = last.base.endCol ∧
       ((wm = true ∧ last.base.startRow.val = 1 ∧ last.base.endRow.val = 3 ∧
         m.base.startRow.val = 3 ∧ m.base.endRow.val = 2) ∨
        (wm = false ∧ last.base.startRow.val = 1 ∧ last.base.endRow.val = 5 ∧
         m.base.startRow.val = 5 ∧ m.base.endRow.val = 6)))) ∧
  (pawn13 m → bo 2 m.base.endCol = none ∧ m.base.startCol = m.base.endCol ∧
    capSame m.base ∧ m.secondary = none) ∧
  ¬ pawn15 m

/-- Every generated capture whose captured square differs from its end
square (an en-passant capture) has an empty destination square. This is
the one reversal condition generation alone does not guarantee; it is
an invariant of play. -/
def EpOk (s : GameState) : Prop :=
  ∀ m ∈ getPossibleMoves s.board s.white_move s.movelog,
    ¬ capSame m.base → s.board m.base.endRow m.base.endCol = none

instance (s : GameState) : Decidable (EpOk s) := by
  unfold EpOk
  infer_instance

/-- The components of a state that generation, probing and undo read
and restore: board, side to move, move log. -/
def coreOf (s : GameState) : Board × Bool × List Move :=
  (s.board, s.white_move, s.movelog)

/-- n successive undo_move calls. -/
def undoN : Nat → GameState → GameState
  | 0, s => s
  | n + 1, s => undoN n (undoMove s)

/-- The en-passant invariant holds at the state and at every state an
undo chain from it can reach. -/
def EpChain (s : GameState) : Prop := ∀ n, EpOk (undoN n s)

/-- The states the engine can reach from a new game: the caller may
query the legal moves (which mutates the flags and may mutate the king
locations), play a legal move obtained from the query on the queried
state or on the current state, or undo. -/
inductive Reachable : GameState → Prop where
  | init : Reachable newGame
  | query (s : GameState) (h : Reachable s) : Reachable (getValidMoves s).1
  | play (s : GameState) (m : Move) (h : Reachable s)
      (hm : m ∈ (getValidMoves s).2) : Reachable (makeMove s m)
  | playq (s : GameState) (m : Move) (h : Reachable s)
      (hm : m ∈ (getValidMoves s).2) :
      Reachable (makeMove (getValidMoves s).1 m)
  | back (s : GameState) (h : Reachable s) : Reachable (undoMove s)

/-- C8: Move.__eq__ compares the move_id digit concatenations, and for
coordinates in 0..7 this holds exactly when the two (start, end) square
pairs agree; the captured piece, captured square and secondary-move
fields play no part. -/
theorem c8_move_equality_is_coordinate_equality (m1 m2 : Move) :
    moveEq m1 m2 = true ↔
      (m1.base.startRow = m2.base.startRow ∧
       m1.base.startCol = m2.base.startCol ∧
       m1.base.endRow = m2.base.endRow ∧
       m1.base.endCol = m2.base.endCol) := by
  unfold moveEq moveId
  rw [decide_eq_true_iff]
  have h1 := m1.base.startRow.isLt
  have h2 := m1.base.startCol.isLt
  have h3 := m1.base.endRow.isLt
  have h4 := m1.base.endCol.isLt
  have h5 := m2.base.startRow.isLt
  have h6 := m2.base.startCol.isLt
  have h7 := m2.base.endRow.isLt
  have h8 := m2.base.endCol.isLt
  constructor
  · intro h
    refine ⟨Fin.ext ?_, Fin.ext ?_, Fin.ext ?_, Fin.ext ?_⟩ <;> omega
  · rintro ⟨a, b, c, d⟩
    rw [a, b, c, d]

/-- C9: undo_move with an empty move log returns the state unchanged in
every field. -/
theorem c9_undo_on_empty_log_is_noop (s : GameState) (h : s.movelog = []) :
    undoMove s = s := by
  unfold undoMove
  rw [h]
  rfl

/-- Witness for C9 at the initial state. -/
theorem c9_undo_on_empty_log_is_noop_witness : undoMove newGame = newGame :=
  c9_undo_on_empty_log_is_noop newGame rfl

theorem kingUpd_movelog (s : GameState) (m : SMove) :
    (kingUpd s m).movelog = s.movelog := by
  unfold kingUpd
  split_ifs <;> rfl

theorem makeMove_movelog (s : GameState) (mv : Move) :
    (makeMove s mv).movelog = s.movelog ++ [mv] := by
  unfold makeMove
  cases mv.secondary <;>
    simp [kingUpd_movelog, List.concat_eq_append]

theorem castleSpec_wk (s : GameState) (hwm : s.white_move = true)
    (h1 : logHas s.movelog 7 4 = false)
    (h2 : logHas s.movelog 7 7 = false ∧ s.board 7 5 = none ∧ s.board 7 6 = none) :
    CastleSpec s (newMove s.board 7 4 7 6 none none
      (some (newMove s.board 7 7 7 5 none none none).base)) := by
  unfold CastleSpec
  rw [hwm]
  exact ⟨h1, rfl, rfl, rfl, (newMove s.board 7 7 7 5 none none none).base,
    rfl, rfl, rfl, rfl, Or.inl ⟨rfl, rfl, rfl, h2.1, h2.2.1, h2.2.2⟩⟩

theorem castleSpec_wq (s : GameState) (hwm : s.white_move = true)
    (h1 : logHas s.movelog 7 4 = false)
    (h3 : logHas s.movelog 7 0 = false ∧ s.board 7 1 = none ∧
      s.board 7 2 = none ∧ s.board 7 3 = none) :
    CastleSpec s (newMove s.board 7 4 7 2 none none
      (some (newMove s.board 7 0 7 3 none none none).base)) := by
  unfold CastleSpec
  rw [hwm]
  exact ⟨h1, rfl, rfl, rfl, (newMove s.board 7 0 7 3 none none none).base,
    rfl, rfl, rfl, rfl, Or.inr ⟨rfl, rfl, rfl, h3.1, h3.2.1, h3.2.2.1, h3.2.2.2⟩⟩

theorem castleSpec_bk (s : GameState) (hwm : s.white_move = false)
    (h1 : logHas s.movelog 0 4 = false)
    (h2 : logHas s.movelog 0 7 = false ∧ s.board 0 5 = none ∧ s.board 0 6 = none) :
    CastleSpec s (newMove s.board 0 4 0 6 none none
      (some (newMove s.board 0 7 0 5 none none none).base)) := by
  unfold CastleSpec
  rw [hwm]
  exact ⟨h1, rfl, rfl, rfl, (newMove s.board 0 7 0 5 none none none).base,
    rfl, rfl, rfl, rfl, Or.inl ⟨rfl, rfl, rfl, h2.1, h2.2.1, h2.2.2⟩⟩

theorem castleSpec_bq (s : GameState) (hwm : s.white_move = false)
    (h1 : logHas s.movelog 0 4 = false)
    (h3 : logHas s.movelog 0 0 = false ∧ s.board 0 1 = none ∧
      s.board 0 2 = none ∧ s.board 0 3 = none) :
    CastleSpec s (newMove s.board 0 4 0 2 none none
      (some (newMove s.board 0 0 0 3 none none none).base)) := by
  unfold CastleSpec
  rw [hwm]
  exact ⟨h1, rfl, rfl, rfl, (newMove s.board 0 0 0 3 none none none).base,
    rfl, rfl, rfl, rfl, Or.inr ⟨rfl, rfl, rfl, h3.1, h3.2.1, h3.2.2.1, h3.2.2.2⟩⟩

/-- C7: a castling move is generated only when no logged move starts on
the king's original square or the involved rook's original square and
the squares between them are empty, and it carries the rook relocation
as its secondary move; a played castle is recorded in the log, and any
logged move starting on the king's original square blocks both castles
of that side from then on. -/
theorem c7_castles_characterized (s : GameState) :
    (∀ m ∈ getCastles s.board s.white_move s.movelog [], CastleSpec s m) ∧
    (∀ m ∈ getCastles s.board s.white_move s.movelog [],
      m ∈ (makeMove s m).movelog) ∧
    (logHas s.movelog (homeRow s.white_move).val 4 = true →
      getCastles s.board s.white_move s.movelog [] = []) ∧
    (∀ mv ∈ s.movelog,
      mv.base.startRow = homeRow s.white_move → mv.base.startCol = 4 →
      getCastles s.board s.white_move s.movelog [] = []) := by
  have hblock : logHas s.movelog (homeRow s.white_move).val 4 = true →
      getCastles s.board s.white_move s.movelog [] = [] := by
    intro h
    unfold getCastles
    cases hwm : s.white_move <;> rw [hwm] at h
    · have h0 : logHas s.movelog 0 4 = true := h
      have hc : ¬ (logHas s.movelog 0 4 = false) := by simp [h0]
      simp only [Bool.false_eq_true, if_false]
      rw [if_neg hc]
    · have h0 : logHas s.movelog 7 4 = true := h
      have hc : ¬ (logHas s.movelog 7 4 = false) := by simp [h0]
      simp only [eq_self_iff_true, if_true]
      rw [if_neg hc]
  refine ⟨?_, ?_, hblock, ?_⟩
  · intro m hm
    unfold getCastles at hm
    cases hwm : s.white_move
    · rw [hwm] at hm
      simp only [Bool.false_eq_true, if_false] at hm
      split_ifs at hm with h1 h2 h3 h4 <;>
        simp only [List.nil_append, List.mem_append, List.mem_singleton,
          List.not_mem_nil, or_false, false_or] at hm
      · rcases hm with rfl | rfl
        · exact castleSpec_bk s hwm h1 h3
        · exact castleSpec_bq s hwm h1 h2
      · rcases hm with rfl
        exact castleSpec_bq s hwm h1 h2
      · rcases hm with rfl
        exact castleSpec_bk s hwm h1 h4
    · rw [hwm] at hm
      simp only [eq_self_iff_true, if_true] at hm
      split_ifs at hm with h1 h2 h3 h4 <;>
        simp only [List.nil_append, List.mem_append, List.mem_singleton,
          List.not_mem_nil, or_false, false_or] at hm
      · rcases hm with rfl | rfl
        · exact castleSpec_wk s hwm h1 h3
        · exact castleSpec_wq s hwm h1 h2
      · rcases hm with rfl
        exact castleSpec_wq s hwm h1 h2
      · rcases hm with rfl
        exact castleSpec_wk s hwm h1 h4
  · intro m hm
    rw [makeMove_movelog]
    simp
  · intro mv hmem ha hb
    refine hblock ?_
    unfold logHas
    rw [List.any_eq_true]
    refine ⟨mv, hmem, ?_⟩
    rw [decide_eq_true_iff]
    exact ⟨by rw [ha], by rw [hb]; rfl⟩

theorem execSimple_outside (bo : Board) (m : SMove) (i j : Fin 8)
    (h : ¬ hits m i j) : execSimple bo m i j = bo i j := by
  unfold execSimple setB
  split_ifs with h1 h2 h3
  · exact absurd (Or.inr (Or.inl h1)) h
  · exact absurd (Or.inr (Or.inr h2)) h
  · exact absurd (Or.inl h3) h
  · rfl

theorem undoSimple_point (bo : Board) (m : SMove) (x : Board) (i j : Fin 8)
    (hsnap : SnapOk bo m) (hcap : capSame m)
    (hx : ¬ hits m i j → x i j = bo i j) :
    undoSimple x m i j = bo i j := by
  unfold undoSimple setB
  split_ifs with h1 h2 h3
  · rcases h1 with ⟨rfl, rfl⟩
    exact hsnap.2
  · exact absurd ⟨h2.1.trans hcap.1.symm, h2.2.trans hcap.2.symm⟩ h1
  · rcases h3 with ⟨rfl, rfl⟩
    exact hsnap.1
  · refine hx (fun hh => ?_)
    rcases hh with hS | hE | hC
    · exact h3 hS
    · exact h2 hE
    · exact h1 hC

theorem undoSimple_point_ep (bo : Board) (m : SMove) (x : Board) (i j : Fin 8)
    (hsnap : SnapOk bo m) (hend : bo m.endRow m.endCol = none)
    (hx : ¬ hits m i j → x i j = bo i j) :
    undoSimple x m i j = bo i j := by
  unfold undoSimple setB
  split_ifs with h1 h2 h3
  · rcases h1 with ⟨rfl, rfl⟩
    exact hsnap.2
  · rcases h2 with ⟨rfl, rfl⟩
    exact hend.symm
  · rcases h3 with ⟨rfl, rfl⟩
    exact hsnap.1
  · refine hx (fun hh => ?_)
    rcases hh with hS | hE | hC
    · exact h3 hS
    · exact h2 hE
    · exact h1 hC

theorem make_undo_board_none (bo : Board) (m : SMove) (h : SimpleRev bo m) :
    undoSimple (execSimple bo m) m = bo := by
  rcases h with ⟨hsnap, hcap | ⟨hend, _⟩⟩
  · funext i j
    exact undoSimple_point bo m _ i j hsnap hcap
      (fun hh => execSimple_outside bo m i j hh)
  · funext i j
    exact undoSimple_point_ep bo m _ i j hsnap hend
      (fun hh => execSimple_outside bo m i j hh)

theorem make_undo_board_sec (bo : Board) (b r : SMove)
    (hsb : SnapOk bo b) (hcb : capSame b)
    (hsr : SnapOk bo r) (hcr : capSame r) :
    undoSimple (undoSimple (execSimple (execSimple bo b) r) b) r = bo := by
  funext i j
  refine undoSimple_point bo r _ i j hsr hcr (fun hr => ?_)
  refine undoSimple_point bo b _ i j hsb hcb (fun hb => ?_)
  rw [execSimple_outside _ r i j hr, execSimple_outside _ b i j hb]

theorem kingUpd_board (s : GameState) (m : SMove) :
    (kingUpd s m).board = s.board := by
  unfold kingUpd
  split_ifs <;> rfl

theorem kingUpd_white_move (s : GameState) (m : SMove) :
    (kingUpd s m).white_move = s.white_move := by
  unfold kingUpd
  split_ifs <;> rfl

theorem makeMove_white_move (s : GameState) (mv : Move) :
    (makeMove s mv).white_move = !s.white_move := by
  unfold makeMove
  cases mv.secondary <;> simp [kingUpd_white_move]

theorem makeMove_board (s : GameState) (mv : Move) :
    (makeMove s mv).board =
      mv.secondary.elim (execSimple s.board mv.base)
        (fun r => execSimple (execSimple s.board mv.base) r) := by
  unfold makeMove
  cases mv.secondary <;> simp [kingUpd_board]

theorem undoMove_core_eq (s : GameState) (mv : Move)
    (h : s.movelog.getLast? = some mv) :
    (undoMove s).board =
      mv.secondary.elim (undoSimple s.board mv.base)
        (fun r => undoSimple (undoSimple s.board mv.base) r) ∧
    (undoMove s).white_move = !s.white_move ∧
    (undoMove s).movelog = s.movelog.dropLast := by
  unfold undoMove
  rw [h]
  cases hs : mv.secondary <;> simp [hs, Option.elim]

/-- A make_move followed by undo_move restores board, turn and log
under the reversal conditions. -/
theorem make_undo_core (s : GameState) (mv : Move) (h : MoveRev s.board mv) :
    (undoMove (makeMove s mv)).board = s.board ∧
    (undoMove (makeMove s mv)).white_move = s.white_move ∧
    (undoMove (makeMove s mv)).movelog = s.movelog := by
  have hlast : (makeMove s mv).movelog.getLast? = some mv := by
    rw [makeMove_movelog, List.getLast?_concat]
  obtain ⟨hb, hw, hl⟩ := undoMove_core_eq (makeMove s mv) mv hlast
  refine ⟨?_, ?_, ?_⟩
  · rw [hb, makeMove_board]
    unfold MoveRev at h
    cases hs : mv.secondary
    · rw [hs] at h
      simp only [Option.elim]
      exact make_undo_board_none s.board mv.base h
    · rw [hs] at h
      simp only [Option.elim] at h ⊢
      exact make_undo_board_sec s.board mv.base _ h.1 h.2.1 h.2.2.1 h.2.2.2
  · rw [hw, makeMove_white_move, Bool.not_not]
  · rw [hl, makeMove_movelog, List.dropLast_concat]

theorem flipTurn_flipTurn (s : GameState) : flipTurn (flipTurn s) = s := by
  unfold flipTurn
  cases s
  simp

theorem checkGameState_core (s : GameState) (moves : List Move) :
    (checkGameState s moves).board = s.board ∧
    (checkGameState s moves).white_move = s.white_move ∧
    (checkGameState s moves).movelog = s.movelog := by
  unfold checkGameState
  split_ifs <;> exact ⟨rfl, rfl, rfl⟩

theorem probeStep_core (s0 : GameState) (st : GameState × List Move)
    (mv : Move) (hb : st.1.board = s0.board)
    (hw : st.1.white_move = s0.white_move)
    (hl : st.1.movelog = s0.movelog) (hrev : MoveRev s0.board mv) :
    (probeStep st mv).1.board = s0.board ∧
    (probeStep st mv).1.white_move = s0.white_move ∧
    (probeStep st mv).1.movelog = s0.movelog := by
  have hrev2 : MoveRev st.1.board mv := hb ▸ hrev
  obtain ⟨b1, w1, l1⟩ := make_undo_core st.1 mv hrev2
  have hstep : (probeStep st mv).1 = undoMove (makeMove st.1 mv) := by
    unfold probeStep
    dsimp only
    rw [flipTurn_flipTurn]
  rw [hstep]
  exact ⟨b1.trans hb, w1.trans hw, l1.trans hl⟩

theorem probeFold_core (s0 : GameState) :
    ∀ (L : List Move) (st : GameState × List Move),
      (∀ m ∈ L, MoveRev s0.board m) →
      st.1.board = s0.board → st.1.white_move = s0.white_move →
      st.1.movelog = s0.movelog →
      ((L.foldl probeStep st).1.board = s0.board ∧
       (L.foldl probeStep st).1.white_move = s0.white_move ∧
       (L.foldl probeStep st).1.movelog = s0.movelog)
  | [], _, _, hb, hw, hl => ⟨hb, hw, hl⟩
  | m :: L, st, hall, hb, hw, hl => by
    obtain ⟨b1, w1, l1⟩ :=
      probeStep_core s0 st m hb hw hl (hall m (List.mem_cons_self m L))
    exact probeFold_core s0 L (probeStep st m)
      (fun x hx => hall x (List.mem_cons_of_mem m hx)) b1 w1 l1

/-- The frame property of get_valid_moves: the board, the turn flag and
the move log come back to their pre-call values. -/
theorem getValidMoves_core (s : GameState) (h : ProbeOk s) :
    (getValidMoves s).1.board = s.board ∧
    (getValidMoves s).1.white_move = s.white_move ∧
    (getValidMoves s).1.movelog = s.movelog := by
  obtain ⟨b1, w1, l1⟩ := probeFold_core s
    (getPossibleMoves s.board s.white_move s.movelog)
    (s, getPossibleMoves s.board s.white_move s.movelog) h rfl rfl rfl
  obtain ⟨b2, w2, l2⟩ := checkGameState_core
    (((getPossibleMoves s.board s.white_move s.movelog).foldl probeStep
      (s, getPossibleMoves s.board s.white_move s.movelog)).1)
    (((getPossibleMoves s.board s.white_move s.movelog).foldl probeStep
      (s, getPossibleMoves s.board s.white_move s.movelog)).2)
  exact ⟨b2.trans b1, w2.trans w1, l2.trans l1⟩

/-- cellKindP tests exactly for a pawn. -/
theorem cellKindP_some (a : PColor) (k : PKind) :
    cellKindP (some (a, k)) = true ↔ k = PKind.P := by
  cases k <;> simp [cellKindP]

/-- Fold preservation for accumulator-passing generators. -/
theorem foldl_forall {α : Type} (P : Move → Prop)
    (f : List Move → α → List Move)
    (hf : ∀ acc x, (∀ m ∈ acc, P m) → ∀ m ∈ f acc x, P m) :
    ∀ (l : List α) (acc : List Move), (∀ m ∈ acc, P m) →
      ∀ m ∈ l.foldl f acc, P m
  | [], _, hacc => hacc
  | x :: l, acc, hacc =>
    foldl_forall P f hf l (f acc x) (hf acc x hacc)

/-- Fold preservation for the ray generator, whose state also carries
the stop flag. -/
theorem foldl_forall_fst {α β : Type} (P : Move → Prop)
    (f : List Move × β → α → List Move × β)
    (hf : ∀ st x, (∀ m ∈ st.1, P m) → ∀ m ∈ (f st x).1, P m) :
    ∀ (l : List α) (st : List Move × β), (∀ m ∈ st.1, P m) →
      ∀ m ∈ (l.foldl f st).1, P m
  | [], _, hacc => hacc
  | x :: l, st, hacc =>
    foldl_forall_fst P f hf l (f st x) (hf st x hacc)

theorem fin?_eq_some (r c : Int) (q : Fin 8 × Fin 8) (h : fin? r c = some q) :
    0 ≤ r ∧ r < 8 ∧ 0 ≤ c ∧ c < 8 ∧ ((q.1.val : Int) = r ∧ (q.2.val : Int) = c) := by
  unfold fin? at h
  split_ifs at h with hb
  · obtain ⟨h1, h2, h3, h4⟩ := hb
    cases h
    exact ⟨h1, h2, h3, h4, Int.toNat_of_nonneg h1, Int.toNat_of_nonneg h3⟩

/-- cellAt at in-range coordinates is the board value. -/
theorem cellAt_eq (bo : Board) (i j : Fin 8) :
    cellAt bo (i.val : Int) (j.val : Int) = bo i j := by
  unfold cellAt fin?
  rw [dif_pos]
  · simp
  · refine ⟨by omega, by exact_mod_cast i.isLt, by omega, by exact_mod_cast j.isLt⟩

/-- GenOk for a plain generated move of a non-pawn piece. -/
theorem genOk_newMove_simple (bo : Board) (wm : Bool) (log : List Move)
    (r c er ec : Fin 8) (al : PColor) (k : PKind)
    (hrc : bo r c = some (al, k)) (hk : k ≠ PKind.P) :
    GenOk bo wm log (newMove bo r c er ec none none none) := by
  refine ⟨⟨rfl, rfl⟩, ?_, ?_, ?_, ?_⟩
  · intro x hx
    cases hx
  · intro hcap
    exact absurd ⟨rfl, rfl⟩ hcap
  · intro hp
    have hker : cellKindP (bo r c) = true := hp.1
    rw [hrc, cellKindP_some] at hker
    exact (hk hker).elim
  · intro hp
    have hker : cellKindP (bo r c) = true := hp.1
    rw [hrc, cellKindP_some] at hker
    exact hk hker

/-- offsetMoves (knight and king) preserves GenOk. -/
theorem genOk_offsetMoves (bo : Board) (wm : Bool) (log : List Move)
    (al : PColor) (offs : List (Int × Int)) (acc : List Move) (r c : Fin 8)
    (pc : PColor) (k : PKind) (hrc : bo r c = some (pc, k))
    (hk : k ≠ PKind.P) (hacc : ∀ m ∈ acc, GenOk bo wm log m) :
    ∀ m ∈ offsetMoves bo al offs acc r c, GenOk bo wm log m := by
  unfold offsetMoves
  refine foldl_forall (GenOk bo wm log) _ ?_ offs acc hacc
  intro a d ha m hm
  rcases hq : fin? ((r.val : Int) + d.1) ((c.val : Int) + d.2) with - | q <;>
    rw [hq] at hm <;> dsimp only at hm
  · exact ha m hm
  · split_ifs at hm
    · exact ha m hm
    · rcases List.mem_append.1 hm with h | h
      · exact ha m h
      · rcases List.mem_singleton.1 h with rfl
        exact genOk_newMove_simple bo wm log r c q.1 q.2 pc k hrc hk

/-- One ray direction preserves GenOk. -/
theorem genOk_rayDirMoves (bo : Board) (wm : Bool) (log : List Move)
    (al : PColor) (r c : Fin 8) (d : Int × Int) (acc : List Move)
    (pc : PColor) (k : PKind) (hrc : bo r c = some (pc, k))
    (hk : k ≠ PKind.P) (hacc : ∀ m ∈ acc, GenOk bo wm log m) :
    ∀ m ∈ rayDirMoves bo al r c d acc, GenOk bo wm log m := by
  unfold rayDirMoves
  refine foldl_forall_fst (GenOk bo wm log) _ ?_ (List.range' 1 7) (acc, false) hacc
  intro st i hst m hm
  split_ifs at hm
  · exact hst m hm
  · rcases hq : fin? ((r.val : Int) + d.1 * (i : Int)) ((c.val : Int) + d.2 * (i : Int))
      with - | q <;> rw [hq] at hm
    · exact hst m hm
    · dsimp only at hm
      split_ifs at hm
      · exact hst m hm
      · rcases List.mem_append.1 hm with h | h
        · exact hst m h
        · rcases List.mem_singleton.1 h with rfl
          exact genOk_newMove_simple bo wm log r c q.1 q.2 pc k hrc hk

theorem genOk_getRookMoves (bo : Board) (wm : Bool) (log : List Move)
    (acc : List Move) (r c : Fin 8) (pc : PColor) (k : PKind)
    (hrc : bo r c = some (pc, k)) (hk : k ≠ PKind.P)
    (hacc : ∀ m ∈ acc, GenOk bo wm log m) :
    ∀ m ∈ getRookMoves bo wm acc r c, GenOk bo wm log m := by
  unfold getRookMoves
  refine foldl_forall (GenOk bo wm log) _ ?_ _ acc hacc
  intro a d ha
  exact genOk_rayDirMoves bo wm log (allyOf wm) r c d a pc k hrc hk ha

theorem genOk_getBishopMoves (bo : Board) (wm : Bool) (log : List Move)
    (acc : List Move) (r c : Fin 8) (pc : PColor) (k : PKind)
    (hrc : bo r c = some (pc, k)) (hk : k ≠ PKind.P)
    (hacc : ∀ m ∈ acc, GenOk bo wm log m) :
    ∀ m ∈ getBishopMoves bo wm acc r c, GenOk bo wm log m := by
  unfold getBishopMoves
  refine foldl_forall (GenOk bo wm log) _ ?_ _ acc hacc
  intro a d ha
  exact genOk_rayDirMoves bo wm log (allyOf wm) r c d a pc k hrc hk ha

theorem genOk_getQueenMoves (bo : Board) (wm : Bool) (log : List Move)
    (acc : List Move) (r c : Fin 8) (pc : PColor) (k : PKind)
    (hrc : bo r c = some (pc, k)) (hk : k ≠ PKind.P)
    (hacc : ∀ m ∈ acc, GenOk bo wm log m) :
    ∀ m ∈ getQueenMoves bo wm acc r c, GenOk bo wm log m := by
  unfold getQueenMoves
  intro m hm
  have h1 := genOk_getRookMoves bo wm log acc r c pc k hrc hk hacc
  have h2 : ∀ x ∈ getRookMoves bo wm acc r c ++ getRookMoves bo wm acc r c,
      GenOk bo wm log x := by
    intro x hx
    rcases List.mem_append.1 hx with h | h
    · exact h1 x h
    · exact h1 x h
  have h3 := genOk_getBishopMoves bo wm log _ r c pc k hrc hk h2
  rcases List.mem_append.1 hm with h | h
  · exact h3 m h
  · exact h3 m h

theorem genOk_getKnightMoves (bo : Board) (wm : Bool) (log : List Move)
    (acc : List Move) (r c : Fin 8) (pc : PColor) (k : PKind)
    (hrc : bo r c = some (pc, k)) (hk : k ≠ PKind.P)
    (hacc : ∀ m ∈ acc, GenOk bo wm log m) :
    ∀ m ∈ getKnightMoves bo wm acc r c, GenOk bo wm log m := by
  unfold getKnightMoves
  exact genOk_offsetMoves bo wm log (allyOf wm) _ acc r c pc k hrc hk hacc

theorem genOk_getKingMoves (bo : Board) (wm : Bool) (log : List Move)
    (acc : List Move) (r c : Fin 8) (pc : PColor) (k : PKind)
    (hrc : bo r c = some (pc, k)) (hk : k ≠ PKind.P)
    (hacc : ∀ m ∈ acc, GenOk bo wm log m) :
    ∀ m ∈ getKingMoves bo wm acc r c, GenOk bo wm log m := by
  unfold getKingMoves
  exact genOk_offsetMoves bo wm log (allyOf wm) _ acc r c pc k hrc hk hacc

theorem genOk_addSimple_pawn (bo : Board) (wm : Bool) (log : List Move)
    (acc : List Move) (r c : Fin 8) (er ec : Int) (al : PColor)
    (hrc : bo r c = some (al, PKind.P))
    (h13 : r.val = 1 → er = 3 → (ec = (c.val : Int) ∧ bo 2 c = none))
    (h15 : r.val = 1 → er ≠ 5)
    (hacc : ∀ m ∈ acc, GenOk bo wm log m) :
    ∀ m ∈ addSimple bo acc r c er ec, GenOk bo wm log m := by
  unfold addSimple
  rcases hq : fin? er ec with - | q <;> dsimp only
  · exact hacc
  · intro m hm
    rcases List.mem_append.1 hm with h | h
    · exact hacc m h
    · rcases List.mem_singleton.1 h with rfl
      obtain ⟨he1, he2, he3, he4, hv1, hv2⟩ := fin?_eq_some er ec q hq
      refine ⟨⟨rfl, rfl⟩, ?_, ?_, ?_, ?_⟩
      · intro x hx
        cases hx
      · intro hcap
        exact absurd ⟨rfl, rfl⟩ hcap
      · intro hp
        have hp1 : r.val = 1 := hp.2.1
        have hp3 : q.1.val = 3 := hp.2.2
        have her : er = 3 := by omega
        obtain ⟨hec, hbo⟩ := h13 hp1 her
        have hq2 : q.2 = c := by
          apply Fin.ext
          omega
        refine ⟨?_, ?_, ⟨rfl, rfl⟩, rfl⟩
        · show bo 2 q.2 = none
          rw [hq2]
          exact hbo
        · show c = q.2
          rw [hq2]
      · intro hp
        have hp1 : r.val = 1 := hp.2.1
        have hp5 : q.1.val = 5 := hp.2.2
        have her : er = 5 := by omega
        exact h15 hp1 her

/-- Conditional generation step preserving GenOk. -/
theorem genOk_ite (cond : Prop) [Decidable cond] (bo : Board) (wm : Bool)
    (log : List Move) (l1 l2 : List Move)
    (h1 : cond → ∀ m ∈ l1, GenOk bo wm log m)
    (h2 : ¬cond → ∀ m ∈ l2, GenOk bo wm log m) :
    ∀ m ∈ (if cond then l1 else l2), GenOk bo wm log m := by
  split_ifs with hc
  exacts [h1 hc, h2 hc]

theorem genOk_ite_addSimple (cond : Prop) [Decidable cond] (bo : Board)
    (wm : Bool) (log : List Move) (l : List Move) (r c : Fin 8) (er ec : Int)
    (al : PColor) (hrc : bo r c = some (al, PKind.P))
    (h13 : r.val = 1 → er = 3 → (ec = (c.val : Int) ∧ bo 2 c = none))
    (h15 : r.val = 1 → er ≠ 5)
    (hl : ∀ m ∈ l, GenOk bo wm log m) :
    ∀ m ∈ (if cond then addSimple bo l r c er ec else l),
      GenOk bo wm log m := by
  split_ifs
  · exact genOk_addSimple_pawn bo wm log l r c er ec al hrc h13 h15 hl
  · exact hl

theorem genOk_getPawnMoves (bo : Board) (wm : Bool) (log : List Move)
    (acc : List Move) (r c : Fin 8) (al : PColor)
    (hrc : bo r c = some (al, PKind.P))
    (hacc : ∀ m ∈ acc, GenOk bo wm log m) :
    ∀ m ∈ getPawnMoves bo wm acc r c, GenOk bo wm log m := by
  unfold getPawnMoves
  by_cases hwm : wm = true
  · rw [if_pos hwm]
    dsimp only
    refine genOk_ite_addSimple _ bo wm log _ r c ((r.val : Int) - 1)
      ((c.val : Int) + 1) al hrc
      (fun ha hb => absurd hb (by omega)) (fun ha => by omega) ?_
    refine genOk_ite_addSimple _ bo wm log _ r c ((r.val : Int) - 1)
      ((c.val : Int) - 1) al hrc
      (fun ha hb => absurd hb (by omega)) (fun ha => by omega) ?_
    refine genOk_ite _ bo wm log _ _ (fun hc1 => ?_) (fun _ => hacc)
    refine genOk_ite_addSimple _ bo wm log _ r c ((r.val : Int) - 2)
      ((c.val : Int)) al hrc
      (fun ha hb => absurd hb (by omega)) (fun ha => by omega) ?_
    exact genOk_addSimple_pawn bo wm log acc r c ((r.val : Int) - 1)
      ((c.val : Int)) al hrc
      (fun ha hb => absurd hb (by omega)) (fun ha => by omega) hacc
  · rw [if_neg hwm]
    dsimp only
    refine genOk_ite_addSimple _ bo wm log _ r c ((r.val : Int) + 1)
      ((c.val : Int) + 1) al hrc
      (fun ha hb => absurd hb (by omega)) (fun ha => by omega) ?_
    refine genOk_ite_addSimple _ bo wm log _ r c ((r.val : Int) + 1)
      ((c.val : Int) - 1) al hrc
      (fun ha hb => absurd hb (by omega)) (fun ha => by omega) ?_
    refine genOk_ite _ bo wm log _ _ (fun hc1 => ?_) (fun _ => hacc)
    refine genOk_ite_addSimple _ bo wm log _ r c ((r.val : Int) + 2)
      ((c.val : Int)) al hrc (fun ha hb => ?_) (fun ha => by omega) ?_
    · refine ⟨rfl, ?_⟩
      have hcell : cellAt bo ((r.val : Int) + 1) (c.val : Int) = none := hc1.2.2
      have hr2 : (r.val : Int) + 1 = ((2 : Fin 8).val : Int) := by
        have hv : ((2 : Fin 8).val : Int) = 2 := by decide
        omega
      rw [hr2] at hcell
      rw [cellAt_eq bo 2 c] at hcell
      exact hcell
    · exact genOk_addSimple_pawn bo wm log acc r c ((r.val : Int) + 1)
        ((c.val : Int)) al hrc
        (fun ha hb => absurd hb (by omega)) (fun ha => by omega) hacc

theorem genOk_getEnPassant (bo : Board) (wm : Bool) (log : List Move)
    (acc : List Move) (r c : Fin 8) (al : PColor)
    (hrc : bo r c = some (al, PKind.P))
    (hacc : ∀ m ∈ acc, GenOk bo wm log m) :
    ∀ m ∈ getEnPassant bo wm log acc r c, GenOk bo wm log m := by
  unfold getEnPassant
  rcases hlast : log.getLast? with - | last <;> dsimp only
  · exact hacc
  · cases wm
    · simp only [Bool.false_eq_true, if_false]
      split_ifs with hk hr5 h15b hcr hcl <;> intro m hm <;>
        first
          | exact hacc m hm
          | (rcases List.mem_append.1 hm with h | h
             · exact hacc m h
             · rcases List.mem_singleton.1 h with rfl
               have h6v : ((6 : Fin 8)).val = 6 := rfl
               refine ⟨⟨rfl, rfl⟩, ?_, ?_, ?_, ?_⟩
               · intro x hx
                 cases hx
               · intro hcap2
                 refine ⟨rfl, ?_, last, hlast, hk, rfl,
                   Or.inr ⟨rfl, h15b.1, h15b.2, hr5, h6v⟩⟩
                 intro he
                 have hval : r.val = ((6 : Fin 8)).val := congrArg Fin.val he
                 omega
               · intro hp
                 have hp1 : r.val = 1 := hp.2.1
                 omega
               · intro hp
                 have hp1 : r.val = 1 := hp.2.1
                 omega)
    · simp only [eq_self_iff_true, if_true]
      split_ifs with hk hr3 h13 hcr hcl <;> intro m hm <;>
        first
          | exact hacc m hm
          | (rcases List.mem_append.1 hm with h | h
             · exact hacc m h
             · rcases List.mem_singleton.1 h with rfl
               have h2v : ((2 : Fin 8)).val = 2 := rfl
               refine ⟨⟨rfl, rfl⟩, ?_, ?_, ?_, ?_⟩
               · intro x hx
                 cases hx
               · intro hcap2
                 refine ⟨rfl, ?_, last, hlast, hk, rfl,
                   Or.inl ⟨rfl, h13.1, h13.2, hr3, h2v⟩⟩
                 intro he
                 have hval : r.val = ((2 : Fin 8)).val := congrArg Fin.val he
                 omega
               · intro hp
                 have hp1 : r.val = 1 := hp.2.1
                 omega
               · intro hp
                 have hp1 : r.val = 1 := hp.2.1
                 omega)

theorem genOk_castleMove (bo : Board) (wm : Bool) (log : List Move)
    (sr sc er ec : Fin 8) (rk : SMove) (hsr : sr.val ≠ 1)
    (hrk : SnapOk bo rk ∧ capSame rk) :
    GenOk bo wm log (newMove bo sr sc er ec none none (some rk)) := by
  refine ⟨⟨rfl, rfl⟩, ?_, ?_, ?_, ?_⟩
  · intro x hx
    cases hx
    exact ⟨hrk.1, hrk.2, rfl, rfl⟩
  · intro hcap
    exact absurd ⟨rfl, rfl⟩ hcap
  · intro hp
    exact (hsr hp.2.1).elim
  · intro hp
    exact hsr hp.2.1

theorem genOk_getCastles (bo : Board) (wm : Bool) (log : List Move)
    (acc : List Move) (hacc : ∀ m ∈ acc, GenOk bo wm log m) :
    ∀ m ∈ getCastles bo wm log acc, GenOk bo wm log m := by
  unfold getCastles
  split_ifs <;> intro m hm <;>
    first
      | exact hacc m hm
      | (rcases List.mem_append.1 hm with h | h
         · exact hacc m h
         · rcases List.mem_singleton.1 h with rfl
           exact genOk_castleMove bo wm log _ _ _ _ _ (by decide)
             ⟨⟨rfl, rfl⟩, rfl, rfl⟩)
      | (rcases List.mem_append.1 hm with h | h
         · rcases List.mem_append.1 h with h2 | h2
           · exact hacc m h2
           · rcases List.mem_singleton.1 h2 with rfl
             exact genOk_castleMove bo wm log _ _ _ _ _ (by decide)
               ⟨⟨rfl, rfl⟩, rfl, rfl⟩
         · rcases List.mem_singleton.1 h with rfl
           exact genOk_castleMove bo wm log _ _ _ _ _ (by decide)
             ⟨⟨rfl, rfl⟩, rfl, rfl⟩)

/-- Every move get_possible_moves generates satisfies GenOk. -/
theorem genOk_getPossibleMoves (bo : Board) (wm : Bool) (log : List Move) :
    ∀ m ∈ getPossibleMoves bo wm log, GenOk bo wm log m := by
  unfold getPossibleMoves
  refine foldl_forall (GenOk bo wm log) _ ?_ (List.finRange 8) []
    (fun m hm => absurd hm (List.not_mem_nil m))
  intro accR r haccR
  refine foldl_forall (GenOk bo wm log) _ ?_ (List.finRange 8) accR haccR
  intro a c ha
  rcases hrc : bo r c with - | p <;> dsimp only
  · exact ha
  · obtain ⟨pc, k⟩ := p
    split_ifs with hpc
    · cases k
      · exact fun m hm => genOk_getEnPassant bo wm log _ r c pc hrc
          (genOk_getPawnMoves bo wm log a r c pc hrc ha) m hm
      · exact genOk_getKnightMoves bo wm log a r c pc PKind.N hrc
          (by decide) ha
      · exact genOk_getBishopMoves bo wm log a r c pc PKind.B hrc
          (by decide) ha
      · exact genOk_getRookMoves bo wm log a r c pc PKind.R hrc
          (by decide) ha
      · exact genOk_getQueenMoves bo wm log a r c pc PKind.Q hrc
          (by decide) ha
      · exact fun m hm => genOk_getCastles bo wm log _
          (genOk_getKingMoves bo wm log a r c pc PKind.K hrc (by decide) ha)
          m hm
    · exact ha

theorem probeOk_of_epOk (s : GameState) (hep : EpOk s) : ProbeOk s := by
  intro m hm
  obtain ⟨h1, h2, h3, h4, h5⟩ :=
    genOk_getPossibleMoves s.board s.white_move s.movelog m hm
  unfold MoveRev
  rcases hsec : m.secondary with - | rsec
  · dsimp only [Option.elim]
    refine ⟨h1, ?_⟩
    by_cases hc : capSame m.base
    · exact Or.inl hc
    · refine Or.inr ⟨hep m hm hc, fun habs => (h3 hc).2.1 habs.1⟩
  · dsimp only [Option.elim]
    obtain ⟨hsr, hcr, hcb⟩ := h2 rsec hsec
    exact ⟨h1, hcb, hsr, hcr⟩

theorem removeFirst_subset (l : List Move) (x : Move) :
    ∀ m ∈ removeFirst l x, m ∈ l := by
  induction l with
  | nil =>
    intro m hm
    cases hm
  | cons a l ih =>
    intro m hm
    unfold removeFirst at hm
    split_ifs at hm
    · exact List.mem_cons_of_mem a hm
    · rcases List.mem_cons.1 hm with rfl | hm2
      · exact List.mem_cons_self m l
      · exact List.mem_cons_of_mem a (ih m hm2)

theorem probeFold_subset (base : List Move) :
    ∀ (L : List Move) (st : GameState × List Move),
      (∀ m ∈ st.2, m ∈ base) → ∀ m ∈ (L.foldl probeStep st).2, m ∈ base
  | [], _, h => h
  | x :: L, st, h =>
    probeFold_subset base L (probeStep st x) (by
      intro m hm
      unfold probeStep at hm
      dsimp only at hm
      split_ifs at hm
      · exact h m (removeFirst_subset _ _ m hm)
      · exact h m hm)

/-- The filtered legal list is a subset of the pseudo-legal list. -/
theorem valid_subset (s : GameState) :
    ∀ m ∈ (getValidMoves s).2,
      m ∈ getPossibleMoves s.board s.white_move s.movelog := by
  intro m hm
  exact probeFold_subset (getPossibleMoves s.board s.white_move s.movelog)
    (getPossibleMoves s.board s.white_move s.movelog)
    (s, getPossibleMoves s.board s.white_move s.movelog)
    (fun x hx => hx) m hm

/-- Applying a generated move preserves the en-passant invariant. -/
theorem epOk_make (s : GameState) (m : Move)
    (hm : m ∈ getPossibleMoves s.board s.white_move s.movelog) :
    EpOk (makeMove s m) := by
  intro m2 hm2 hc2
  obtain ⟨-, -, hg3, -, -⟩ :=
    genOk_getPossibleMoves (makeMove s m).board (makeMove s m).white_move
      (makeMove s m).movelog m2 hm2
  obtain ⟨hsec2, hne2, last, hl2, hkp, hcol, hdisj⟩ := hg3 hc2
  have hlast : (makeMove s m).movelog.getLast? = some m := by
    rw [makeMove_movelog, List.getLast?_concat]
  rw [hlast] at hl2
  cases hl2
  have hgm := genOk_getPossibleMoves s.board s.white_move s.movelog m hm
  rcases hdisj with ⟨hw2, h1, h3, hsr2, her2⟩ | ⟨hw2, h1, h5, hsr2, her2⟩
  · have h13m : pawn13 m := ⟨hkp, h1, h3⟩
    obtain ⟨hbo2, hcolm, hcapm, hsecm⟩ := hgm.2.2.2.1 h13m
    have he2 : m2.base.endRow = (2 : Fin 8) := by
      apply Fin.ext
      rw [her2]
      rfl
    rw [he2, hcol, makeMove_board, hsecm]
    dsimp only [Option.elim]
    have hv2 : ((2 : Fin 8)).val = 2 := rfl
    rw [execSimple_outside s.board m.base 2 m.base.endCol ?hno]
    case hno =>
      rintro (⟨ha, -⟩ | ⟨ha, -⟩ | ⟨ha, -⟩)
      · have hva := congrArg Fin.val ha
        omega
      · have hva := congrArg Fin.val ha
        omega
      · have hva := congrArg Fin.val ha
        have hcr := congrArg Fin.val hcapm.1
        omega
    exact hbo2
  · exact absurd ⟨hkp, h1, h5⟩ hgm.2.2.2.2

/-- undo_move on an empty log is the identity. -/
theorem undoMove_of_nil (s : GameState) (h : s.movelog = []) :
    undoMove s = s := by
  unfold undoMove
  rw [h]
  rfl

theorem undoMove_coreOf (s1 s2 : GameState) (h : coreOf s1 = coreOf s2) :
    coreOf (undoMove s1) = coreOf (undoMove s2) := by
  have hb : s1.board = s2.board := congrArg Prod.fst h
  have hw : s1.white_move = s2.white_move := congrArg (fun x => x.2.1) h
  have hl : s1.movelog = s2.movelog := congrArg (fun x => x.2.2) h
  unfold undoMove
  rw [hb, hw, hl]
  rcases s2.movelog.getLast? with - | mv <;> dsimp only
  · unfold coreOf
    rw [hb, hw, hl]
  · rcases mv.secondary with - | m2 <;> dsimp only <;> rfl

theorem epOk_coreOf (s1 s2 : GameState) (h : coreOf s1 = coreOf s2) :
    EpOk s1 ↔ EpOk s2 := by
  have hb : s1.board = s2.board := congrArg Prod.fst h
  have hw : s1.white_move = s2.white_move := congrArg (fun x => x.2.1) h
  have hl : s1.movelog = s2.movelog := congrArg (fun x => x.2.2) h
  unfold EpOk
  rw [hb, hw, hl]

theorem undoN_coreOf (n : Nat) : ∀ s1 s2 : GameState,
    coreOf s1 = coreOf s2 → coreOf (undoN n s1) = coreOf (undoN n s2) := by
  induction n with
  | zero => exact fun s1 s2 h => h
  | succ k ih =>
    intro s1 s2 h
    exact ih (undoMove s1) (undoMove s2) (undoMove_coreOf s1 s2 h)

/-- Every generated move of a state with an empty log is a capSame
move, so the invariant holds vacuously. -/
theorem epOk_of_nil (s : GameState) (h : s.movelog = []) : EpOk s := by
  intro m hm hc
  obtain ⟨-, -, last, hlast, -⟩ :=
    (genOk_getPossibleMoves s.board s.white_move s.movelog m hm).2.2.1 hc
  rw [h] at hlast
  cases hlast

theorem undoN_newGame (n : Nat) : undoN n newGame = newGame := by
  induction n with
  | zero => rfl
  | succ k ih =>
    show undoN k (undoMove newGame) = newGame
    rw [undoMove_of_nil newGame rfl]
    exact ih

theorem coreOf_getValidMoves (s : GameState) (hep : EpOk s) :
    coreOf (getValidMoves s).1 = coreOf s := by
  obtain ⟨hb, hw, hl⟩ := getValidMoves_core s (probeOk_of_epOk s hep)
  unfold coreOf
  rw [hb, hw, hl]

theorem epChain_reachable (s : GameState) (h : Reachable s) : EpChain s := by
  induction h with
  | init =>
    intro n
    rw [undoN_newGame]
    exact epOk_of_nil newGame rfl
  | query s hs ih =>
    intro n
    have hcc := undoN_coreOf n _ _ (coreOf_getValidMoves s (ih 0))
    exact (epOk_coreOf _ _ hcc).mpr (ih n)
  | play s m hs hm ih =>
    intro n
    cases n with
    | zero => exact epOk_make s m (valid_subset s m hm)
    | succ k =>
      have hrev : coreOf (undoMove (makeMove s m)) = coreOf s := by
        obtain ⟨hb, hw, hl⟩ := make_undo_core s m
          (probeOk_of_epOk s (ih 0) m (valid_subset s m hm))
        unfold coreOf
        rw [hb, hw, hl]
      have hcc := undoN_coreOf k _ _ hrev
      exact (epOk_coreOf _ _ hcc).mpr (ih k)
  | playq s m hs hm ih =>
    intro n
    have hq := coreOf_getValidMoves s (ih 0)
    have hqb : (getValidMoves s).1.board = s.board := congrArg Prod.fst hq
    have hqw : (getValidMoves s).1.white_move = s.white_move :=
      congrArg (fun x => x.2.1) hq
    have hql : (getValidMoves s).1.movelog = s.movelog :=
      congrArg (fun x => x.2.2) hq
    have hm2 : m ∈ getPossibleMoves (getValidMoves s).1.board
        (getValidMoves s).1.white_move (getValidMoves s).1.movelog := by
      rw [hqb, hqw, hql]
      exact valid_subset s m hm
    cases n with
    | zero => exact epOk_make (getValidMoves s).1 m hm2
    | succ k =>
      have hepq : EpOk (getValidMoves s).1 := (epOk_coreOf _ _ hq).mpr (ih 0)
      have hrev : coreOf (undoMove (makeMove (getValidMoves s).1 m)) =
          coreOf s := by
        obtain ⟨hb, hw, hl⟩ := make_undo_core (getValidMoves s).1 m
          (probeOk_of_epOk _ hepq m hm2)
        refine Eq.trans ?_ hq
        unfold coreOf
        rw [hb, hw, hl]
      have hcc := undoN_coreOf k _ _ hrev
      exact (epOk_coreOf _ _ hcc).mpr (ih k)
  | back s hs ih =>
    intro n
    exact ih (n + 1)

/-- C10: on every reachable game state, get_valid_moves returns with
the board, the side-to-move flag and the move log equal to their exact
pre-call values; every make_move/undo_move probe performed by the
legality filter is fully reverted for these three components. -/
theorem c10_getValidMoves_preserves_core (s : GameState) (h : Reachable s) :
    (getValidMoves s).1.board = s.board ∧
    (getValidMoves s).1.white_move = s.white_move ∧
    (getValidMoves s).1.movelog = s.movelog :=
  getValidMoves_core s (probeOk_of_epOk s (epChain_reachable s h 0))

/-- Witness for C10 at the initial state. -/
theorem c10_getValidMoves_preserves_core_witness :
    (getValidMoves newGame).1.board = newGame.board ∧
    (getValidMoves newGame).1.white_move = newGame.white_move ∧
    (getValidMoves newGame).1.movelog = newGame.movelog :=
  c10_getValidMoves_preserves_core newGame Reachable.init

/-- C1: the specification says get_valid_moves for White at the standard
initial position returns exactly 20 moves. The code returns a 74-element
list: get_queen_moves extends the shared move list with itself after its
rook half and again after its bishop half, quadrupling the 18 moves
accumulated before the queen is scanned; only 20 moves are distinct. -/
theorem c1_initial_position_returns_74_moves :
    (getValidMoves newGame).2.length = 74 ∧
    (((getValidMoves newGame).2.map moveId).dedup).length = 20 := by
  decide

/-- C2: make_move of the legal king move Ke1-e2 after 1. e3 e6 followed
by undo_move restores the board and the side-to-move flag but leaves
white_king_loc at (6,4), the square of the undone move, instead of the
pre-move value (7,4): undo_move never touches the king-location
fields. -/
theorem c2_undo_does_not_restore_king_loc :
    kmE2 ∈ (getValidMoves s2c2).2 ∧
    (undoMove (makeMove s2c2 kmE2)).board = s2c2.board ∧
    (undoMove (makeMove s2c2 kmE2)).white_move = s2c2.white_move ∧
    (undoMove (makeMove s2c2 kmE2)).white_king_loc = (6, 4) ∧
    s2c2.white_king_loc = (7, 4) := by
  decide

/-- C3: in the stalemate position (black to move, no legal move, black
king not attacked) the code sets checkmate and not stalemate, because
check_game_state tests the truthiness of the bound method object
self.in_check instead of calling it, so the stalemate branch is dead
code. -/
theorem c3_stalemate_sets_checkmate_flag :
    (getValidMoves staleState).2 = [] ∧
    inCheck staleState = false ∧
    (getValidMoves staleState).1.checkmate = true ∧
    (getValidMoves staleState).1.stalemate = false := by
  decide

/-- C4: in pinState the white king on e1 is in check from the e8 rook,
yet the rook move h1-h2 survives remove_selfchecks: the castle and king
probes executed earlier in the loop leave white_king_loc on a stale
square because undo_move does not restore it, so the filter tests the
wrong square. After applying the returned move, the mover's king square
e1 is attacked by the side to move (black). -/
theorem c4_valid_move_leaves_own_king_attacked :
    rh2 ∈ (getValidMoves pinState).2 ∧
    (makeMove pinState rh2).white_move = false ∧
    (makeMove pinState rh2).board 7 4 = some (PColor.w, PKind.K) ∧
    ((getPossibleMoves (makeMove pinState rh2).board
        (makeMove pinState rh2).white_move
        (makeMove pinState rh2).movelog).any
      (fun mv => decide (mv.base.endRow = (7 : Fin 8) ∧
        mv.base.endCol = (4 : Fin 8)))) = true := by
  decide

/-- C5: get_pawn_moves generates the diagonal capture e2xd3 even though
d3 holds a white knight, the mover's own piece: the diagonal branch only
tests that the square is occupied, not that it is occupied by an
opponent. -/
theorem c5_pawn_capture_of_own_piece_generated :
    pawnAlly ∈ getPossibleMoves allyCapState.board allyCapState.white_move
      allyCapState.movelog ∧
    allyCapState.board 5 3 = some (PColor.w, PKind.N) ∧
    pawnAlly.base.pieceMoved = some (PColor.w, PKind.P) ∧
    pawnAlly.base.endRow = 5 ∧ pawnAlly.base.endCol = 3 := by
  decide

/-- C6: after the white double step e2-e4 (a legal move of epPreState)
lands beside the black d4 pawn, the en-passant capture d4xe3 is absent
from black's pseudo-legal moves: the black branch of get_en_passant
requires the capturer on row 5 and a last move from row 1 to row 5,
conditions no white double step (row 6 to row 4) can meet. -/
theorem c6_black_en_passant_never_generated :
    e2e4mv ∈ (getValidMoves epPreState).2 ∧
    epState.movelog = [e2e4mv] ∧
    e2e4mv.base.pieceMoved = some (PColor.w, PKind.P) ∧
    e2e4mv.base.startRow = 6 ∧ e2e4mv.base.endRow = 4 ∧
    e2e4mv.base.endCol = 4 ∧
    epState.board 4 3 = some (PColor.b, PKind.P) ∧
    epState.white_move = false ∧
    ((getPossibleMoves epState.board epState.white_move
        epState.movelog).any
      (fun mv => decide (mv.base.startRow.val = 4 ∧ mv.base.startCol.val = 3 ∧
        mv.base.endRow.val = 5 ∧ mv.base.endCol.val = 4))) = false := by
  decide

end ChessGame
